import Mathlib

/-!
Shallow embedding of the revision-manifest manager of
`ember-cli-deploy-azure-tables` (src/index.js).

The Azure table is modelled as a list of entities (rows); each store
operation of the plugin becomes a pure function on that list.  The
asynchronous promise chains of the source are sequentialised: each
callback's effect on the table and the resolved/rejected outcome are
computed in order, exactly as the single-logical-thread execution of the
source performs them.
-/

namespace AzureTables

/-- A row of the Azure table, as built by `entityGenerator` in the source:
partition key, row key, a `content` column, an optional `compression`
column, and the store-assigned `Timestamp` (epoch milliseconds). -/
structure Entity where
  partitionKey : String
  rowKey : String
  content : String
  compression : Option String := none
  timestamp : Nat
deriving DecidableEq, Repr

/-- An element of the sequence produced by `_query`'s final `map`
(src/index.js:315-318): `{ revision, timestamp, active }`. -/
structure ListedEntry where
  revision : String
  timestamp : Nat
  active : Bool
deriving DecidableEq, Repr

/-- `AZURE_MANIFEST_TAG` (src/index.js:16), the default partition tag. -/
def AZURE_MANIFEST_TAG : String := "manifest"

/-- `AZURE_DISALLOWED_VALUES` (src/index.js:19-27): characters Azure
forbids in key fields.  Each entry of the JS array is a one-character
string, so we model them as characters. -/
def AZURE_DISALLOWED_VALUES : List Char :=
  ['/', '\\', '#', '?', '\t', '\n', '\r']

/-- The filter in `_projectName` (src/index.js:63):
`AZURE_DISALLOWED_VALUES.filter(v => name.includes(v))`.  Each needle is
a one-character string, so `includes` is membership of that character
among the name's characters. -/
def containedChars (name : String) : List Char :=
  AZURE_DISALLOWED_VALUES.filter (fun v => name.data.contains v)

/-- `_projectName` throws iff `containedChars.length > 0`
(src/index.js:64); a name is valid iff that check does not fire. -/
def validProjectName (name : String) : Bool :=
  (containedChars name).length == 0

/-- JavaScript `a || b` on the explicit `commandOptions.revision`: the
fallback is used when the option is absent (`undefined`) or the empty
string (both falsy). -/
def jsOr (explicit : Option String) (fallback : String) : String :=
  match explicit with
  | some s => if s = "" then fallback else s
  | none => fallback

/-- The effective revision key of `_key` (src/index.js:57):
`context.commandOptions.revision || context.revisionData.revisionKey.substr(0, 8)`. -/
def revisionKeyOf (explicit : Option String) (hash : String) : String :=
  jsOr explicit (hash.take 8)

/-- The key shape of `_key` (src/index.js:58):
`projectName + ':' + revisionKey`. -/
def deriveRevisionKey (p r : String) : String :=
  p ++ ":" ++ r

/-- `_key` (src/index.js:56-59) with the project name and the two
revision sources as inputs. -/
def key (p : String) (explicit : Option String) (hash : String) : String :=
  deriveRevisionKey p (revisionKeyOf explicit hash)

/-- `_currentKey` (src/index.js:237-239): `projectName + ':current'`. -/
def currentKey (p : String) : String :=
  p ++ ":current"

/-- The equality filter `PartitionKey eq tag AND RowKey eq rk` used by
`upload` (src/index.js:129-131) and `_current` (src/index.js:251-253). -/
def matchesRow (tag rk : String) (e : Entity) : Bool :=
  e.partitionKey == tag && e.rowKey == rk

/-- `_current` (src/index.js:240-272): query the pointer row
`(manifestTag, <project>:current)`; resolve the first entry's `content`
when the result is non-empty, `null` otherwise. -/
def currentValue (table : List Entity) (tag p : String) : Option String :=
  match table.filter (matchesRow tag (currentKey p)) with
  | [] => none
  | e :: _ => some e.content

/-- The range filter of `_list` (src/index.js:284-286):
`PartitionKey eq tag AND RowKey ne currentKey`. -/
def listFilter (tag ck : String) (e : Entity) : Bool :=
  e.partitionKey == tag && e.rowKey != ck

/-- The comparator of `_query` (src/index.js:311-313) as a relation:
`b.Timestamp - a.Timestamp`, i.e. timestamp descending. -/
def tsDesc : Entity → Entity → Prop :=
  fun a b => b.timestamp ≤ a.timestamp

instance : DecidableRel tsDesc :=
  fun a b => Nat.decLe b.timestamp a.timestamp

instance : IsTotal Entity tsDesc :=
  ⟨fun a b => Nat.le_total b.timestamp a.timestamp⟩

instance : IsTrans Entity tsDesc :=
  ⟨fun _ _ _ h1 h2 => Nat.le_trans h2 h1⟩

/-- `sortedEntries.sort(...)` (src/index.js:311-313).  `Array#sort` with
the timestamp-descending comparator is modelled by a sort with respect
to `tsDesc`; the algorithm itself is unspecified by the source, only the
comparator is. -/
def sortEntries (l : List Entity) : List Entity :=
  l.insertionSort tsDesc

/-- The `map` of `_query` (src/index.js:315-318): keep the row key as
`revision`, the timestamp, and mark the entry `active` iff the current
pointer value equals its revision. -/
def mapEntry (current : Option String) (e : Entity) : ListedEntry :=
  { revision := e.rowKey, timestamp := e.timestamp,
    active := current == some e.rowKey }

/-- The final-page branch of `_query` (src/index.js:308-320): sort the
accumulated entries and map them. -/
def finalize (current : Option String) (entries : List Entity) : List ListedEntry :=
  (sortEntries entries).map (mapEntry current)

/-- One store response to `queryEntities` during pagination: either a
page of entries together with the presence of a continuation token, or a
store error. -/
inductive Page where
  | ok (entries : List Entity) (hasMore : Bool)
  | err (msg : String)
deriving DecidableEq, Repr

/-- `_query` (src/index.js:296-328) over the sequence of store
responses: push each page's entries onto the accumulator; on a missing
continuation token sort, map and resolve; otherwise recurse; on a store
error reject with it. -/
def queryRun (current : Option String) :
    List Page → List Entity → Except String (List ListedEntry)
  | [], _ => Except.error "store returned no response"
  | Page.err m :: _, _ => Except.error m
  | Page.ok es hasMore :: rest, acc =>
    if hasMore then queryRun current rest (acc ++ es)
    else Except.ok (finalize current (acc ++ es))

/-- A store serving the filtered rows in the given page groups: every
page but the last carries a continuation token. -/
def mkPages : List (List Entity) → List Page
  | [] => []
  | [es] => [Page.ok es false]
  | es :: rest => Page.ok es true :: mkPages rest

/-- `_list` (src/index.js:273-295) against a store that answers the
range query in a single page: resolve the current pointer, filter out
the pointer row, sort and annotate. -/
def listRevisions (table : List Entity) (tag p : String) : List ListedEntry :=
  finalize (currentValue table tag p) (table.filter (listFilter tag (currentKey p)))

/-- Message of the duplicate rejection in `upload` (src/index.js:138). -/
def dupMsg : String :=
  "Key already in manifest - revision already uploaded or collided."

/-- The entity built by `upload` (src/index.js:140-149): content is the
payload; when `compressIndex` is set the content is the compressed blob
and a `compression = "gzip"` column is added. -/
def uploadEntity (tag k payload : String) (compress : Bool) (ts : Nat) : Entity :=
  { partitionKey := tag, rowKey := k, content := payload,
    compression := if compress then some "gzip" else none, timestamp := ts }

/-- `upload` (src/index.js:99-174): query for the derived row key under
the manifest partition; reject when an entry exists, otherwise
`insertEntity` a single new row. -/
def upload (table : List Entity) (tag k payload : String) (compress : Bool)
    (ts : Nat) : Except String (List Entity) :=
  if (table.filter (matchesRow tag k)).length > 0 then
    Except.error dupMsg
  else
    Except.ok (table ++ [uploadEntity tag k payload compress ts])

/-- The table state after `upload`: unchanged when the upload rejects. -/
def uploadPost (table : List Entity) (tag k payload : String) (compress : Bool)
    (ts : Nat) : List Entity :=
  match upload table tag k payload compress ts with
  | Except.ok t => t
  | Except.error _ => table

/-- Number of rows for a (partition, row key) pair. -/
def countFor (table : List Entity) (tag k : String) : Nat :=
  (table.filter (matchesRow tag k)).length

/-- `insertOrReplaceEntity` (upsert): replace the row with the same
partition and row key when present, append otherwise. -/
def insertOrReplace (table : List Entity) (e : Entity) : List Entity :=
  if table.any (matchesRow e.partitionKey e.rowKey) then
    table.map (fun r => if matchesRow e.partitionKey e.rowKey r then e else r)
  else
    table ++ [e]

/-- The pointer entity built by `activate` (src/index.js:211-215):
row key `projectName + ":current"`, content the activated key. -/
def pointerEntity (tag p k : String) (ts : Nat) : Entity :=
  { partitionKey := tag, rowKey := p ++ ":current", content := k,
    compression := none, timestamp := ts }

/-- `activate` (src/index.js:190-231).  The promise chain first lists
the existing entries and, when the key is absent, rejects with
"Revision ... not in manifest" — but the second `.then` callback is not
conditioned on the first's result, so `insertOrReplaceEntity` runs in
both cases and the pointer row is upserted even on the rejected path.
Returns the table after the chain ran and the settled outcome. -/
def activate (table : List Entity) (tag p k : String) (ts : Nat) :
    List Entity × Except String Unit :=
  let existingEntries := listRevisions table tag p
  let found := existingEntries.any (fun e => e.revision == k)
  let table' := insertOrReplace table (pointerEntity tag p k ts)
  if found then (table', Except.ok ())
  else (table', Except.error ("Revision " ++ k ++ " not in manifest"))

/-- The `revisionData` record on the deploy context. -/
structure RevisionData where
  previousRevisionKey : Option String := none
  activatedRevisionKey : Option String := none
deriving DecidableEq, Repr

/-- The deploy context, reduced to the field the hooks mutate:
`revisionData` may be absent (`undefined` in the source). -/
structure Context where
  revisionData : Option RevisionData
deriving DecidableEq, Repr

/-- `willActivate` (src/index.js:181-188): resolve the current pointer,
create `revisionData` when absent, and record the value as
`previousRevisionKey`.  Returns the (unchanged) table and the mutated
context. -/
def willActivate (table : List Entity) (tag p : String) (ctx : Context) :
    List Entity × Context :=
  let current := currentValue table tag p
  let rd := ctx.revisionData.getD {}
  (table, { revisionData := some { rd with previousRevisionKey := current } })

/-! ### Helper lemmas on keys -/

/-- Splitting a character list at a colon is unambiguous when the
suffixes are colon-free. -/
theorem colon_split {l1 r1 l2 r2 : List Char}
    (h1 : ':' ∉ r1) (h2 : ':' ∉ r2)
    (h : l1 ++ ':' :: r1 = l2 ++ ':' :: r2) : l1 = l2 ∧ r1 = r2 := by
  induction l1 generalizing l2 with
  | nil =>
    cases l2 with
    | nil => simpa using h
    | cons c l2t =>
      simp only [List.nil_append, List.cons_append, List.cons.injEq] at h
      obtain ⟨hc, hr⟩ := h
      exact absurd (by rw [hr]; exact List.mem_append_right l2t (List.mem_cons_self ':' r2)) h1
  | cons c l1t ih =>
    cases l2 with
    | nil =>
      simp only [List.nil_append, List.cons_append, List.cons.injEq] at h
      obtain ⟨hc, hr⟩ := h
      exact absurd (by rw [← hr]; exact List.mem_append_right l1t (List.mem_cons_self ':' r1)) h2
    | cons d l2t =>
      simp only [List.cons_append, List.cons.injEq] at h
      obtain ⟨hcd, hrest⟩ := h
      obtain ⟨hl, hr⟩ := ih hrest
      exact ⟨by rw [hcd, hl], hr⟩

/-- The characters of a derived revision key. -/
theorem deriveRevisionKey_data (p r : String) :
    (deriveRevisionKey p r).data = p.data ++ ':' :: r.data := by
  show ((p ++ ":") ++ r).data = _
  rw [String.data_append, String.data_append, List.append_assoc]
  rfl

/-- The characters of the current-pointer key. -/
theorem currentKey_data (p : String) :
    (currentKey p).data = p.data ++ ':' :: "current".data := by
  show (p ++ ":current").data = _
  rw [String.data_append]

/-! ### Helper lemmas on listing and activation -/

/-- Every member of a listing arises from a row passing the range
filter, annotated with the current pointer value. -/
theorem mem_listRevisions {table : List Entity} {tag p : String} {le : ListedEntry}
    (h : le ∈ listRevisions table tag p) :
    ∃ e ∈ table.filter (listFilter tag (currentKey p)),
      mapEntry (currentValue table tag p) e = le := by
  simp only [listRevisions, finalize, sortEntries, List.mem_map,
    List.mem_insertionSort] at h
  exact h

/-- Rows passing the range filter survive sorting and mapping into the
listing. -/
theorem mem_listRevisions_of_filter {table : List Entity} {tag p : String} {e : Entity}
    (h : e ∈ table.filter (listFilter tag (currentKey p))) :
    mapEntry (currentValue table tag p) e ∈ listRevisions table tag p := by
  simp only [listRevisions, finalize, sortEntries, List.mem_map,
    List.mem_insertionSort]
  exact ⟨e, h, rfl⟩

/-- Running `_query` against a store that serves the filtered rows in
any number of linked pages accumulates all of them. -/
theorem queryRun_mkPages (current : Option String) (pe : List (List Entity))
    (hne : pe ≠ []) :
    ∀ acc, queryRun current (mkPages pe) acc =
      Except.ok (finalize current (acc ++ pe.flatten)) := by
  induction pe with
  | nil => exact absurd rfl hne
  | cons es rest ih =>
    intro acc
    cases rest with
    | nil => simp [mkPages, queryRun]
    | cons es2 rest2 =>
      have hstep := ih (by simp) (acc ++ es)
      simp only [mkPages, queryRun, if_true] at hstep ⊢
      rw [hstep]
      simp [List.flatten_cons, List.append_assoc]

/-- The pointer row never passes the range filter of `_list`. -/
theorem listFilter_pointerEntity (tag p k : String) (ts : Nat) :
    listFilter tag (currentKey p) (pointerEntity tag p k ts) = false := by
  simp [listFilter, pointerEntity, currentKey]

/-- A row matching the pointer query fails the range filter. -/
theorem listFilter_of_matchesRow {tag ck : String} {r : Entity}
    (h : matchesRow tag ck r = true) : listFilter tag ck r = false := by
  simp only [matchesRow, Bool.and_eq_true, beq_iff_eq] at h
  simp [listFilter, h.1, h.2]

/-- Replacing the pointer row does not change the rows passing the
range filter. -/
theorem filter_map_replace (tag ck : String) (e : Entity)
    (he : listFilter tag ck e = false) (table : List Entity) :
    (table.map (fun r => if matchesRow tag ck r then e else r)).filter
        (listFilter tag ck) =
      table.filter (listFilter tag ck) := by
  induction table with
  | nil => rfl
  | cons r rest ih =>
    cases hm : matchesRow tag ck r with
    | true => simp [hm, he, listFilter_of_matchesRow hm, ih]
    | false => simp [hm, ih, List.filter_cons]

/-- Replacing the pointer row rewrites every row matching the pointer
query to the new pointer entity. -/
theorem filter_map_replace_matches (tag ck : String) (e : Entity)
    (he : matchesRow tag ck e = true) (table : List Entity) :
    (table.map (fun r => if matchesRow tag ck r then e else r)).filter
        (matchesRow tag ck) =
      (table.filter (matchesRow tag ck)).map (fun _ => e) := by
  induction table with
  | nil => rfl
  | cons r rest ih =>
    cases hm : matchesRow tag ck r with
    | true => simp [hm, he, ih]
    | false => simp [hm, ih, List.filter_cons]

/-- Upserting the pointer row leaves the rows passing the `_list` range
filter untouched. -/
theorem filter_insertOrReplace (table : List Entity) (tag p k : String) (ts : Nat) :
    (insertOrReplace table (pointerEntity tag p k ts)).filter
        (listFilter tag (currentKey p)) =
      table.filter (listFilter tag (currentKey p)) := by
  have hpk : (pointerEntity tag p k ts).partitionKey = tag := rfl
  have hrk : (pointerEntity tag p k ts).rowKey = currentKey p := rfl
  unfold insertOrReplace
  rw [hpk, hrk]
  cases hany : table.any (matchesRow tag (currentKey p)) with
  | true =>
    rw [if_pos rfl]
    exact filter_map_replace tag (currentKey p) _
      (listFilter_pointerEntity tag p k ts) table
  | false =>
    rw [if_neg Bool.false_ne_true]
    rw [List.filter_append]
    simp [listFilter_pointerEntity tag p k ts]

/-- After upserting the pointer entity, the current pointer value is
the activated key. -/
theorem currentValue_insertOrReplace (table : List Entity) (tag p k : String)
    (ts : Nat) :
    currentValue (insertOrReplace table (pointerEntity tag p k ts)) tag p =
      some k := by
  have hpk : (pointerEntity tag p k ts).partitionKey = tag := rfl
  have hrk : (pointerEntity tag p k ts).rowKey = currentKey p := rfl
  have hme : matchesRow tag (currentKey p) (pointerEntity tag p k ts) = true := by
    simp [matchesRow, pointerEntity, currentKey]
  unfold insertOrReplace
  rw [hpk, hrk]
  cases hany : table.any (matchesRow tag (currentKey p)) with
  | true =>
    rw [if_pos rfl]
    unfold currentValue
    rw [filter_map_replace_matches tag (currentKey p) _ hme table]
    rcases List.any_eq_true.mp hany with ⟨x, hx, hpx⟩
    cases heq : table.filter (matchesRow tag (currentKey p)) with
    | nil => exact absurd (List.filter_eq_nil_iff.mp heq x hx) (by simp [hpx])
    | cons e0 rest => simp [pointerEntity]
  | false =>
    rw [if_neg Bool.false_ne_true]
    unfold currentValue
    rw [List.filter_append]
    have hnil : table.filter (matchesRow tag (currentKey p)) = [] :=
      List.filter_eq_nil_iff.mpr (by
        intro a ha
        have := List.any_eq_false.mp hany a ha
        simp [this])
    rw [hnil]
    simp [List.filter_cons, matchesRow, pointerEntity, currentKey]

/-- The table coming out of `activate` is the pointer upsert, on the
found and the not-found path alike. -/
theorem activate_fst (table : List Entity) (tag p k : String) (ts : Nat) :
    (activate table tag p k ts).1 =
      insertOrReplace table (pointerEntity tag p k ts) := by
  unfold activate
  cases hf : (listRevisions table tag p).any (fun e => e.revision == k) <;>
    simp [hf]

/-! ### Concrete fixtures -/

/-- A one-revision table used by concrete test theorems. -/
def T0 : List Entity :=
  [{ partitionKey := "manifest", rowKey := "app:r1", content := "index",
     timestamp := 1 }]

/-- Sample manifest rows with increasing timestamps. -/
def E1 : Entity :=
  { partitionKey := "manifest", rowKey := "app:r1", content := "a", timestamp := 1 }

def E2 : Entity :=
  { partitionKey := "manifest", rowKey := "app:r2", content := "b", timestamp := 2 }

def E3 : Entity :=
  { partitionKey := "manifest", rowKey := "app:r3", content := "c", timestamp := 3 }

/-! ### Claim theorems -/

/-- C1: on a store whose manifest holds only `app:r1`, activating the
absent key `app:r2` rejects with "Revision app:r2 not in manifest", yet
the store is written: the promise chain still upserts the pointer row,
so the table is not unchanged. -/
theorem activate_missing_rejects_but_writes :
    activate T0 "manifest" "app" "app:r2" 2 =
      (T0 ++ [pointerEntity "manifest" "app" "app:r2" 2],
       Except.error "Revision app:r2 not in manifest") ∧
    (activate T0 "manifest" "app" "app:r2" 2).1 ≠ T0 := by
  exact ⟨rfl, by decide⟩

/-- C4 counterexample: the claim quantifies over every revision key
`r`, but at `r = "current"` the derived key coincides with the pointer
key, both via the raw shape and via `_key` with an explicit revision. -/
theorem currentKey_eq_deriveRevisionKey_current :
    deriveRevisionKey "app" "current" = currentKey "app" ∧
    key "app" (some "current") "0123456789abcdef" = currentKey "app" := by
  exact ⟨rfl, rfl⟩

/-- C4 amended: the pointer key differs from every derived revision key
whose revision part is not the literal string "current". -/
theorem currentKey_ne_deriveRevisionKey (p r : String) (h : r ≠ "current") :
    currentKey p ≠ deriveRevisionKey p r := by
  intro heq
  have hdata := congrArg String.data heq
  rw [currentKey_data, deriveRevisionKey_data] at hdata
  have := List.append_cancel_left hdata
  have hcur : "current".data = r.data := by
    injection this
  exact h (String.ext hcur.symm)

/-- C4 amended, witnessed at `p = "app"`, `r = "r1"`. -/
theorem currentKey_ne_deriveRevisionKey_witness :
    ("r1" : String) ≠ "current" ∧ currentKey "app" ≠ deriveRevisionKey "app" "r1" :=
  ⟨by decide, currentKey_ne_deriveRevisionKey "app" "r1" (by decide)⟩

/-- C5 counterexample: `deriveRevisionKey` is not injective in the pair
`(p, r)`: the valid project names "a" and "a:b" (a colon is not among
the disallowed characters) give equal keys for distinct pairs. -/
theorem deriveRevisionKey_not_injective :
    validProjectName "a" = true ∧ validProjectName "a:b" = true ∧
    (("a", "b:c") : String × String) ≠ ("a:b", "c") ∧
    deriveRevisionKey "a" "b:c" = deriveRevisionKey "a:b" "c" := by
  exact ⟨by decide, by decide, by decide, rfl⟩

/-- C5 amended: `deriveRevisionKey` is deterministic and injective in
`(p, r)` as long as the revision keys contain no colon: the derived
keys agree exactly when the pairs agree. -/
theorem deriveRevisionKey_injective (p1 r1 p2 r2 : String)
    (h1 : ':' ∉ r1.data) (h2 : ':' ∉ r2.data) :
    deriveRevisionKey p1 r1 = deriveRevisionKey p2 r2 ↔ (p1 = p2 ∧ r1 = r2) := by
  constructor
  · intro heq
    have hdata := congrArg String.data heq
    rw [deriveRevisionKey_data, deriveRevisionKey_data] at hdata
    obtain ⟨hp, hr⟩ := colon_split h1 h2 hdata
    exact ⟨String.ext hp, String.ext hr⟩
  · rintro ⟨rfl, rfl⟩
    rfl

/-- C5 amended, witnessed on concrete colon-free revision keys. -/
theorem deriveRevisionKey_injective_witness :
    (':' ∉ "abc12345".data) ∧ (':' ∉ "xyz99".data) ∧
    (deriveRevisionKey "app" "abc12345" = deriveRevisionKey "demo" "xyz99" ↔
      ("app" = "demo" ∧ "abc12345" = "xyz99")) :=
  ⟨by decide, by decide,
    deriveRevisionKey_injective "app" "abc12345" "demo" "xyz99" (by decide) (by decide)⟩

/-- C3: starting from a table with no entry for the derived row key `k`
under the manifest partition, `upload` succeeds and creates exactly one
row, with the payload as content; a second `upload` of the same key
fails with the duplicate-revision rejection, creates no row, and the
table still contains exactly one entry for `k`. -/
theorem upload_unique (table : List Entity) (tag k pay1 pay2 : String)
    (c1 c2 : Bool) (t1 t2 : Nat)
    (h : countFor table tag k = 0) :
    upload table tag k pay1 c1 t1 =
      Except.ok (table ++ [uploadEntity tag k pay1 c1 t1]) ∧
    countFor (table ++ [uploadEntity tag k pay1 c1 t1]) tag k = 1 ∧
    upload (table ++ [uploadEntity tag k pay1 c1 t1]) tag k pay2 c2 t2 =
      Except.error dupMsg ∧
    uploadPost (table ++ [uploadEntity tag k pay1 c1 t1]) tag k pay2 c2 t2 =
      table ++ [uploadEntity tag k pay1 c1 t1] := by
  have hnil : table.filter (matchesRow tag k) = [] :=
    List.length_eq_zero.mp h
  have hmatch : matchesRow tag k (uploadEntity tag k pay1 c1 t1) = true := by
    simp [matchesRow, uploadEntity]
  have hcount : countFor (table ++ [uploadEntity tag k pay1 c1 t1]) tag k = 1 := by
    unfold countFor
    rw [List.filter_append, hnil]
    simp [hmatch]
  have hfirst : upload table tag k pay1 c1 t1 =
      Except.ok (table ++ [uploadEntity tag k pay1 c1 t1]) := by
    unfold upload
    rw [hnil]
    simp
  have hsecond : upload (table ++ [uploadEntity tag k pay1 c1 t1]) tag k pay2 c2 t2 =
      Except.error dupMsg := by
    unfold upload
    rw [if_pos (by unfold countFor at hcount; omega)]
  refine ⟨hfirst, hcount, hsecond, ?_⟩
  unfold uploadPost
  rw [hsecond]

/-- C3, witnessed from the empty table. -/
theorem upload_unique_witness :
    countFor [] "manifest" "app:r1" = 0 ∧
    (upload [] "manifest" "app:r1" "page" false 1 =
      Except.ok ([] ++ [uploadEntity "manifest" "app:r1" "page" false 1]) ∧
    countFor ([] ++ [uploadEntity "manifest" "app:r1" "page" false 1])
      "manifest" "app:r1" = 1 ∧
    upload ([] ++ [uploadEntity "manifest" "app:r1" "page" false 1])
      "manifest" "app:r1" "page2" true 2 = Except.error dupMsg ∧
    uploadPost ([] ++ [uploadEntity "manifest" "app:r1" "page" false 1])
      "manifest" "app:r1" "page2" true 2 =
      [] ++ [uploadEntity "manifest" "app:r1" "page" false 1]) :=
  ⟨by decide, upload_unique [] "manifest" "app:r1" "page" "page2" false true 1 2 (by decide)⟩

/-- C6: no entry returned by `_list` carries the reserved pointer row
key `<project>:current`; the range filter excludes the pointer row from
every listing. -/
theorem list_excludes_pointer (table : List Entity) (tag p : String) :
    ∀ le ∈ listRevisions table tag p, le.revision ≠ currentKey p := by
  intro le hle
  rcases mem_listRevisions hle with ⟨e, he, heq⟩
  have hf := (List.mem_filter.mp he).2
  simp only [listFilter, Bool.and_eq_true, bne_iff_ne, ne_eq, beq_iff_eq] at hf
  rw [← heq]
  exact hf.2

/-- C6, witnessed on the one-revision table. -/
theorem list_excludes_pointer_witness :
    ({ revision := "app:r1", timestamp := 1, active := false } : ListedEntry) ∈
      listRevisions T0 "manifest" "app" ∧
    ({ revision := "app:r1", timestamp := 1, active := false } : ListedEntry).revision ≠
      currentKey "app" :=
  ⟨by decide, list_excludes_pointer T0 "manifest" "app" _ (by decide)⟩

/-- C7: against a store splitting the range query across any positive
number of pages linked by continuation tokens, `_query` terminates with
the union of all pages' entries: the result is a permutation of the
concatenation of the pages, so nothing is omitted and nothing is
duplicated. -/
theorem list_pagination_complete (current : Option String)
    (pe : List (List Entity)) (hne : pe ≠ []) :
    queryRun current (mkPages pe) [] = Except.ok (finalize current pe.flatten) ∧
    (finalize current pe.flatten).Perm (pe.flatten.map (mapEntry current)) := by
  constructor
  · simpa using queryRun_mkPages current pe hne []
  · exact (List.perm_insertionSort tsDesc pe.flatten).map (mapEntry current)

/-- C7, witnessed on a three-page store. -/
theorem list_pagination_complete_witness :
    ([[E1], [E2], [E3]] : List (List Entity)) ≠ [] ∧
    (queryRun none (mkPages [[E1], [E2], [E3]]) [] =
      Except.ok (finalize none ([[E1], [E2], [E3]] : List (List Entity)).flatten) ∧
    (finalize none ([[E1], [E2], [E3]] : List (List Entity)).flatten).Perm
      (([[E1], [E2], [E3]] : List (List Entity)).flatten.map (mapEntry none))) :=
  ⟨by decide, list_pagination_complete none [[E1], [E2], [E3]] (by decide)⟩

/-- C8: every listing is sorted by timestamp descending: along the
returned sequence each entry's timestamp dominates the next one's. -/
theorem list_sorted_desc (table : List Entity) (tag p : String) :
    (listRevisions table tag p).Pairwise (fun a b => b.timestamp ≤ a.timestamp) := by
  unfold listRevisions finalize
  refine List.pairwise_map.mpr ?_
  have hs : List.Sorted tsDesc
      (sortEntries (table.filter (listFilter tag (currentKey p)))) :=
    List.sorted_insertionSort tsDesc _
  exact hs.imp (fun h => h)

/-- C9: when any page fetch during pagination fails, `_query` rejects
with that store error and the entries accumulated from the earlier
successful pages are discarded: no list is returned at all. -/
theorem list_page_error_rejects (current : Option String) (msg : String) :
    ∀ (pe : List (List Entity)) (rest : List Page) (acc : List Entity),
      queryRun current
        (pe.map (fun es => Page.ok es true) ++ Page.err msg :: rest) acc =
        Except.error msg := by
  intro pe
  induction pe with
  | nil => intro rest acc; rfl
  | cons es pet ih =>
    intro rest acc
    simp only [List.map_cons, List.cons_append, queryRun, if_true]
    exact ih rest (acc ++ es)

/-- C10: `willActivate` leaves the store untouched and records, in a
`revisionData` record it creates when absent, the pointer row's content
as `previousRevisionKey`, or the null sentinel when no pointer row
exists. -/
theorem willActivate_sets_previous (table : List Entity) (tag p : String)
    (ctx : Context) :
    (willActivate table tag p ctx).1 = table ∧
    ∃ rd, (willActivate table tag p ctx).2.revisionData = some rd ∧
      ((table.filter (matchesRow tag (currentKey p)) = [] ∧
          rd.previousRevisionKey = none) ∨
       (∃ e, (table.filter (matchesRow tag (currentKey p))).head? = some e ∧
          rd.previousRevisionKey = some e.content)) := by
  refine ⟨rfl, _, rfl, ?_⟩
  cases hf : table.filter (matchesRow tag (currentKey p)) with
  | nil =>
    left
    exact ⟨rfl, by simp [currentValue, hf]⟩
  | cons e rest =>
    right
    exact ⟨e, by simp [hf], by simp [currentValue, hf]⟩

/-- C2: when the derived key `k` occurs among the listed revisions,
`activate` succeeds; afterwards the current pointer resolves to `k`,
some listed entry with revision `k` is marked active, and every listed
entry is active exactly when its revision equals `k`. -/
theorem activate_success (table : List Entity) (tag p k : String) (ts : Nat)
    (h : (listRevisions table tag p).any (fun e => e.revision == k) = true) :
    (activate table tag p k ts).2 = Except.ok () ∧
    currentValue (activate table tag p k ts).1 tag p = some k ∧
    (∃ le ∈ listRevisions (activate table tag p k ts).1 tag p,
      le.revision = k ∧ le.active = true) ∧
    (∀ le ∈ listRevisions (activate table tag p k ts).1 tag p,
      le.active = (le.revision == k)) := by
  have hfst := activate_fst table tag p k ts
  have hcv := currentValue_insertOrReplace table tag p k ts
  have hfil := filter_insertOrReplace table tag p k ts
  have hlist : listRevisions (activate table tag p k ts).1 tag p =
      finalize (some k) (table.filter (listFilter tag (currentKey p))) := by
    rw [hfst]
    unfold listRevisions
    rw [hfil, hcv]
  refine ⟨by simp [activate, h], by rw [hfst]; exact hcv, ?_, ?_⟩
  · rcases List.any_eq_true.mp h with ⟨le0, hmem, hrev⟩
    rcases mem_listRevisions hmem with ⟨e0, he0, he0eq⟩
    have hk : e0.rowKey = k := by
      have : le0.revision = k := beq_iff_eq.mp hrev
      rw [← he0eq] at this
      exact this
    refine ⟨mapEntry (some k) e0, ?_, hk, ?_⟩
    · rw [hlist]
      unfold finalize sortEntries
      exact List.mem_map.mpr ⟨e0, (List.mem_insertionSort tsDesc).mpr he0, rfl⟩
    · show (some k == some e0.rowKey) = true
      rw [hk]
      simp
  · intro le hle
    rw [hlist] at hle
    unfold finalize at hle
    rcases List.mem_map.mp hle with ⟨e, _, heq⟩
    rw [← heq]
    show (some k == some e.rowKey) = (e.rowKey == k)
    by_cases hek : e.rowKey = k
    · simp [hek]
    · simp [hek, Ne.symm hek]

/-- C2, witnessed by activating the one listed revision of `T0`. -/
theorem activate_success_witness :
    (listRevisions T0 "manifest" "app").any (fun e => e.revision == "app:r1") = true ∧
    ((activate T0 "manifest" "app" "app:r1" 5).2 = Except.ok () ∧
    currentValue (activate T0 "manifest" "app" "app:r1" 5).1 "manifest" "app" =
      some "app:r1" ∧
    (∃ le ∈ listRevisions (activate T0 "manifest" "app" "app:r1" 5).1 "manifest" "app",
      le.revision = "app:r1" ∧ le.active = true) ∧
    (∀ le ∈ listRevisions (activate T0 "manifest" "app" "app:r1" 5).1 "manifest" "app",
      le.active = (le.revision == "app:r1"))) :=
  ⟨by decide, activate_success T0 "manifest" "app" "app:r1" 5 (by decide)⟩

end AzureTables
